import Mathlib

/-!
Shallow embedding of the typed binary codec layer of `src/main.py`:
the fixed-width big-endian encoders and decoders built on Python's
`struct` module (formats `>d`, `>?`, `>q`), the datetime codec layered
on the float codec, and the key-prefix row-range helper
`create_prefix_row_set`.  Byte strings are modelled as `List Nat` with
entries below 256.
-/

/-- Error kinds raised by the Python `struct` module: packing a number
outside the range of the format raises an overflow `struct.error`;
unpacking a buffer whose length differs from the format's size raises an
invalid-length `struct.error`.  The two carry distinct messages, so they
are modelled as distinct constructors. -/
inductive StructError where
  | overflow
  | invalidLength
deriving DecidableEq

/-- Decidable equality of fallible results, so the codec can be
evaluated on concrete inputs. -/
def exceptDecEq {ε α : Type} [DecidableEq ε] [DecidableEq α] : DecidableEq (Except ε α) :=
  fun x y =>
    match x, y with
    | .ok a, .ok b =>
      if h : a = b then .isTrue (by rw [h]) else .isFalse (fun hc => h (Except.ok.inj hc))
    | .error a, .error b =>
      if h : a = b then .isTrue (by rw [h]) else .isFalse (fun hc => h (Except.error.inj hc))
    | .ok _, .error _ => .isFalse (fun hc => Except.noConfusion hc)
    | .error _, .ok _ => .isFalse (fun hc => Except.noConfusion hc)

instance {ε α : Type} [DecidableEq ε] [DecidableEq α] : DecidableEq (Except ε α) :=
  exceptDecEq

/-- Big-endian byte string of a natural number: `beBytes k n` is the
`k`-byte big-endian representation of `n` (faithful for `n < 256 ^ k`),
most significant byte first, as produced by Python's `struct.pack`. -/
def beBytes : Nat → Nat → List Nat
  | 0, _ => []
  | k + 1, n => n / 256 ^ k :: beBytes k (n % 256 ^ k)

/-- Value of a big-endian byte string, as read by Python's
`struct.unpack`. -/
def fromBytesBE : List Nat → Nat
  | [] => 0
  | b :: bs => b * 256 ^ bs.length + fromBytesBE bs

/-- Non-strict lexicographic order on byte strings, as Python compares
`bytes` values (a strict leading segment is smaller). -/
def lexLe : List Nat → List Nat → Bool
  | [], _ => true
  | _ :: _, [] => false
  | a :: as, b :: bs => if a < b then true else if a = b then lexLe as bs else false

/-- Strict lexicographic order on byte strings, as Python compares
`bytes` values. -/
def lexLt : List Nat → List Nat → Bool
  | [], [] => false
  | [], _ :: _ => true
  | _ :: _, [] => false
  | a :: as, b :: bs => if a < b then true else if a = b then lexLt as bs else false

/-- Boolean test that the first byte string is a leading segment of the
second. -/
def startsWith : List Nat → List Nat → Bool
  | [], _ => true
  | _ :: _, [] => false
  | a :: as, b :: bs => if a = b then startsWith as bs else false

/-- The source's `encode_float`, i.e. `struct.pack(">d", value)`: a
Python float is an IEEE-754 binary64 value, represented here by its
64-bit pattern `w` (every float pattern satisfies `w < 2 ^ 64`); packing
emits the eight pattern bytes most significant first. -/
def encode_float (w : Nat) : List Nat := beBytes 8 w

/-- The source's `decode_float`, i.e. `struct.unpack(">d", value)[0]`:
requires exactly eight bytes and reassembles the big-endian 64-bit
pattern of the float. -/
def decode_float (value : List Nat) : Except StructError Nat :=
  if value.length = 8 then .ok (fromBytesBE value) else .error .invalidLength

/-- The source's `encode_boolean`, i.e. `struct.pack(">?", value)`: one
byte, `0x01` for true and `0x00` for false. -/
def encode_boolean (value : Bool) : List Nat := [if value then 1 else 0]

/-- The source's `decode_boolean`, i.e. `struct.unpack(">?", value)[0]`:
requires exactly one byte and follows the C `_Bool` convention, zero is
false and any nonzero byte is true. -/
def decode_boolean (value : List Nat) : Except StructError Bool :=
  match value with
  | [b] => .ok (b != 0)
  | _ => .error .invalidLength

/-- The source's `encode_int`, i.e. `struct.pack(">q", value)`: eight
big-endian bytes of the two's complement of `value` (its residue modulo
`2 ^ 64`); a value outside the signed 64-bit range raises an overflow
`struct.error`. -/
def encode_int (value : Int) : Except StructError (List Nat) :=
  if -(2 ^ 63) ≤ value ∧ value < 2 ^ 63 then .ok (beBytes 8 (value % 2 ^ 64).toNat)
  else .error .overflow

/-- The source's `decode_int`, i.e. `struct.unpack(">q", value)[0]`:
requires exactly eight bytes and reads them as a big-endian two's
complement signed 64-bit integer. -/
def decode_int (value : List Nat) : Except StructError Int :=
  if value.length = 8 then
    if fromBytesBE value < 2 ^ 63 then .ok (fromBytesBE value : Int)
    else .ok ((fromBytesBE value : Int) - 2 ^ 64)
  else .error .invalidLength

/-- Fuel-driven floor base-2 logarithm, written structurally so the
kernel can evaluate it; `log2f 64 n` is the floor log for every
`n < 2 ^ 64`. -/
def log2f : Nat → Nat → Nat
  | 0, _ => 0
  | fuel + 1, n => if 2 ≤ n then log2f fuel (n / 2) + 1 else 0

/-- IEEE-754 binary64 bit pattern of the double whose value is the
integer `s` (sign bit, 11-bit biased exponent, 52-bit mantissa); exact
for `|s| < 2 ^ 53`, the exactly representable integers, which is the
domain the claims quantify over. -/
def doubleBitsOfInt (s : Int) : Nat :=
  if s = 0 then 0
  else
    let n := s.natAbs
    let k := log2f 64 n
    (if s < 0 then 2 ^ 63 else 0) + (k + 1023) * 2 ^ 52 + (n - 2 ^ k) * 2 ^ (52 - k)

/-- Integer value of an IEEE-754 binary64 bit pattern, truncated toward
zero; exact on patterns of integer-valued doubles, which is the domain
the claims quantify over. -/
def intOfDoubleBits (w : Nat) : Int :=
  if w = 0 then 0
  else
    let e := w / 2 ^ 52 % 2 ^ 11
    let m := w % 2 ^ 52
    let mag : Nat :=
      if 1075 ≤ e then (2 ^ 52 + m) * 2 ^ (e - 1075) else (2 ^ 52 + m) / 2 ^ (1075 - e)
    if 2 ^ 63 ≤ w then -(mag : Int) else (mag : Int)

/-- A Python `datetime.datetime` at second granularity: `wall` is the
wall-clock fields read as seconds since the Unix epoch, and `tz` is
`none` for a naive value or `some o` for a fixed offset of `o` seconds
east of UTC.  The claims quantify over whole-second timestamps, so
second granularity covers their domain. -/
structure PyDatetime where
  wall : Int
  tz : Option Int
deriving DecidableEq

/-- Python's `value.replace(tzinfo=datetime.timezone.utc)`: the tzinfo
field is replaced, the wall-clock fields are kept unchanged. -/
def replace_tzinfo_utc (t : PyDatetime) : PyDatetime := ⟨t.wall, some 0⟩

/-- Python's `datetime.timestamp()` on an aware value: the POSIX seconds
of the instant it denotes, wall-clock seconds minus the UTC offset.  The
source only calls it on aware values (right after a `replace`), so the
naive case, which would consult the platform's local timezone, is left
unmodelled as `none`. -/
def timestamp (t : PyDatetime) : Option Int := t.tz.map fun o => t.wall - o

/-- Python's `datetime.utcfromtimestamp(s)`: the naive datetime whose
wall-clock fields are the UTC rendering of POSIX time `s`. -/
def utcfromtimestamp (s : Int) : PyDatetime := ⟨s, none⟩

/-- The source's `encode_datetime`: replace the tzinfo with UTC, take
the POSIX timestamp of the result, and pack it with `encode_float`. -/
def encode_datetime (t : PyDatetime) : Except StructError (List Nat) :=
  match timestamp (replace_tzinfo_utc t) with
  | some s => .ok (encode_float (doubleBitsOfInt s))
  | none => .error .overflow

/-- The source's `decode_datetime`: unpack the double and rebuild a
naive UTC datetime with `utcfromtimestamp`. -/
def decode_datetime (value : List Nat) : Except StructError PyDatetime :=
  (decode_float value).map fun w => utcfromtimestamp (intOfDoubleBits w)

/-- Python `==` on datetimes: a naive value never equals an aware one;
two aware values are equal iff they denote the same instant; two naive
values are equal iff their fields agree. -/
def pyDatetimeEq (t u : PyDatetime) : Bool :=
  match t.tz, u.tz with
  | none, none => t.wall == u.wall
  | some o1, some o2 => t.wall - o1 == u.wall - o2
  | _, _ => false

/-- Two aware datetimes denote the same instant. -/
def sameInstant (t u : PyDatetime) : Bool :=
  match t.tz, u.tz with
  | some o1, some o2 => t.wall - o1 == u.wall - o2
  | _, _ => false

/-- The `str | bytes` argument type of the source's
`create_prefix_row_set`; a str is its byte content (the source's keys
are ASCII). -/
inductive StrOrBytes where
  | str (s : List Nat)
  | bytes (b : List Nat)

/-- Python f-string interpolation of a `str | bytes` value: a str
formats as itself; a bytes value formats as its repr, modelled here for
bytes made of printable ASCII without single quotes or backslashes,
where repr(b) is the five-character frame b, quote, contents, quote
(bytes 98 and 39). -/
def pyFormat : StrOrBytes → List Nat
  | .str s => s
  | .bytes b => 98 :: 39 :: (b ++ [39])

/-- Increment of the last byte of a key, leaving the empty key empty:
the successor used to close a prefix range from above. -/
def incLast : List Nat → List Nat
  | [] => []
  | [a] => [a + 1]
  | a :: as => a :: incLast as

/-- Modelled from the spec: the external client's `RowSet` restricted to
what the source builds, a single half-open row range from `start`
(inclusive) to `stop` (exclusive).  The client library itself is not
part of this repository. -/
structure RowSet where
  start : List Nat
  stop : List Nat
deriving DecidableEq

/-- Modelled from the spec: the external client's
`RowSet.add_row_range_with_prefix(p)`, the half-open range from `p` to
the prefix-increment of `p` on its last byte (the spec's choice of upper
bound; the prefixes the source builds end in the byte 35, so the
trailing-255 corner of the real client never arises). -/
def add_row_range_with_prefix (p : List Nat) : RowSet := ⟨p, incLast p⟩

/-- Modelled from the spec: a key is selected by the row set iff it lies
in the half-open range. -/
def rowSetContains (rs : RowSet) (key : List Nat) : Bool :=
  lexLe rs.start key && lexLt key rs.stop

/-- The source's `create_prefix_row_set`: builds the row set for the
f-string `f"{prefix}#"` (byte 35 is the hash sign). -/
def create_prefix_row_set (p : StrOrBytes) : RowSet :=
  add_row_range_with_prefix (pyFormat p ++ [35])

/-- A big-endian byte string has the requested width. -/
theorem beBytes_length (k : Nat) : ∀ n : Nat, (beBytes k n).length = k := by
  induction k with
  | zero => intro n; rfl
  | succ k ih => intro n; simp [beBytes, ih]

/-- Reading back a big-endian byte string recovers the packed number. -/
theorem fromBytesBE_beBytes (k : Nat) : ∀ n : Nat, n < 256 ^ k → fromBytesBE (beBytes k n) = n := by
  induction k with
  | zero => intro n h; simp [beBytes, fromBytesBE]; omega
  | succ k ih =>
    intro n h
    have hpos : 0 < 256 ^ k := Nat.pos_pow_of_pos k (by omega)
    simp only [beBytes, fromBytesBE, beBytes_length]
    rw [ih _ (Nat.mod_lt _ hpos)]
    have h := Nat.div_add_mod n (256 ^ k)
    rw [Nat.mul_comm (256 ^ k) (n / 256 ^ k)] at h
    omega

/-- Big-endian packing of equal widths is monotone: a smaller number
packs to a lexicographically smaller byte string. -/
theorem lexLe_beBytes (k : Nat) :
    ∀ n m : Nat, n ≤ m → m < 256 ^ k → lexLe (beBytes k n) (beBytes k m) = true := by
  induction k with
  | zero => intro n m _ _; rfl
  | succ k ih =>
    intro n m hnm hm
    have hpos : 0 < 256 ^ k := Nat.pos_pow_of_pos k (by omega)
    have hdiv : n / 256 ^ k ≤ m / 256 ^ k := Nat.div_le_div_right hnm
    have e1 := Nat.div_add_mod n (256 ^ k)
    have e2 := Nat.div_add_mod m (256 ^ k)
    simp only [beBytes, lexLe]
    split
    · rfl
    · split
      · next hlt heq =>
        apply ih
        · rw [heq] at e1; omega
        · exact Nat.mod_lt _ hpos
      · omega

/-- Nothing is lexicographically below the empty byte string. -/
theorem lexLt_nil (bs : List Nat) : lexLt bs [] = false := by
  cases bs <;> rfl

/-- Characterization of a prefix-increment range: a key lies in the
half-open range from a nonempty byte string to its last-byte increment
exactly when it starts with that byte string. -/
theorem range_eq_startsWith (p : List Nat) (hp : p ≠ []) :
    ∀ key : List Nat, (lexLe p key && lexLt key (incLast p)) = startsWith p key := by
  induction p with
  | nil => exact absurd rfl hp
  | cons a as ih =>
    intro key
    cases as with
    | nil =>
      cases key with
      | nil => rfl
      | cons b bs =>
        simp only [lexLe, lexLt, incLast, startsWith, lexLt_nil]
        by_cases h1 : a = b
        · subst h1
          simp [lt_self_iff_false, Nat.lt_succ_self]
        · by_cases h2 : a < b
          · simp [h1, h2, show ¬ b < a + 1 by omega]
          · simp [h1, h2]
    | cons c cs =>
      cases key with
      | nil => simp [lexLe, startsWith]
      | cons b bs =>
        have hinc : incLast (a :: c :: cs) = a :: incLast (c :: cs) := rfl
        rw [hinc]
        simp only [lexLe, lexLt, startsWith]
        by_cases h1 : a = b
        · subst h1
          simp only [lt_self_iff_false, if_false, if_pos rfl]
          exact ih (by simp) bs
        · have h1s : ¬ b = a := fun h => h1 h.symm
          by_cases h2 : a < b
          · simp [h1, h1s, h2, show ¬ b < a by omega]
          · simp [h1, h1s, h2]

/-- The fuel-driven floor log is a lower bound: its power does not
exceed its argument. -/
theorem log2f_le (fuel : Nat) : ∀ n : Nat, 1 ≤ n → n < 2 ^ fuel → 2 ^ log2f fuel n ≤ n := by
  induction fuel with
  | zero => intro n h1 h2; simp at h2; omega
  | succ fuel ih =>
    intro n h1 h2
    simp only [log2f]
    split
    · next hge =>
      have hs : (2:Nat) ^ (fuel + 1) = 2 ^ fuel * 2 := Nat.pow_succ 2 fuel
      have hf : n / 2 < 2 ^ fuel := by omega
      have := ih (n / 2) (by omega) hf
      rw [Nat.pow_succ]
      omega
    · next hge => simpa using h1

/-- The fuel-driven floor log is tight: the next power exceeds the
argument. -/
theorem log2f_gt (fuel : Nat) : ∀ n : Nat, n < 2 ^ fuel → n < 2 ^ (log2f fuel n + 1) := by
  induction fuel with
  | zero =>
    intro n h
    simp at h
    simp [h, log2f]
  | succ fuel ih =>
    intro n h
    simp only [log2f]
    split
    · next hge =>
      have hs : (2:Nat) ^ (fuel + 1) = 2 ^ fuel * 2 := Nat.pow_succ 2 fuel
      have hf : n / 2 < 2 ^ fuel := by omega
      have := ih (n / 2) hf
      rw [Nat.pow_succ]
      omega
    · next hge =>
      have : (2:Nat) ^ (0 + 1) = 2 := by norm_num
      omega

/-- Below `2 ^ 53` the floor log stays within the 52 exponent steps of a
binary64 mantissa. -/
theorem log2f_le_52 {n : Nat} (h1 : 1 ≤ n) (h2 : n < 2 ^ 53) : log2f 64 n ≤ 52 := by
  by_contra hk
  have h53 : 53 ≤ log2f 64 n := by omega
  have hn64 : n < 2 ^ 64 := lt_of_lt_of_le h2 (Nat.pow_le_pow_right (by omega) (by omega))
  have hle := log2f_le 64 n h1 hn64
  have hmono : (2:Nat) ^ 53 ≤ 2 ^ log2f 64 n := Nat.pow_le_pow_right (by omega) h53
  omega

/-- The mantissa field built by `doubleBitsOfInt` fits in 52 bits. -/
theorem mantissa_lt (n : Nat) (h1 : 1 ≤ n) (h53 : n < 2 ^ 53) :
    (n - 2 ^ log2f 64 n) * 2 ^ (52 - log2f 64 n) < 2 ^ 52 := by
  have hn64 : n < 2 ^ 64 := lt_of_lt_of_le h53 (Nat.pow_le_pow_right (by omega) (by omega))
  have hk1 : 2 ^ log2f 64 n ≤ n := log2f_le 64 n h1 hn64
  have hk2 : n < 2 ^ (log2f 64 n + 1) := log2f_gt 64 n hn64
  have hk52 : log2f 64 n ≤ 52 := log2f_le_52 h1 h53
  have hsucc : (2:Nat) ^ (log2f 64 n + 1) = 2 ^ log2f 64 n * 2 := Nat.pow_succ 2 _
  have hpow : (2:Nat) ^ log2f 64 n * 2 ^ (52 - log2f 64 n) = 2 ^ 52 := by
    rw [← pow_add]; congr 1; omega
  have hposp : 0 < (2:Nat) ^ (52 - log2f 64 n) := Nat.pos_pow_of_pos _ (by omega)
  have hsub : n - 2 ^ log2f 64 n < 2 ^ log2f 64 n := by omega
  calc (n - 2 ^ log2f 64 n) * 2 ^ (52 - log2f 64 n)
      < 2 ^ log2f 64 n * 2 ^ (52 - log2f 64 n) := by
        exact (mul_lt_mul_right hposp).mpr hsub
    _ = 2 ^ 52 := hpow

/-- Dividing the hidden-bit mantissa back down recovers the packed
integer. -/
theorem mag_div (n k : Nat) (hk1 : 2 ^ k ≤ n) (hk52 : k ≤ 52) :
    (2 ^ 52 + (n - 2 ^ k) * 2 ^ (52 - k)) / 2 ^ (52 - k) = n := by
  have hpow : (2:Nat) ^ k * 2 ^ (52 - k) = 2 ^ 52 := by
    rw [← pow_add]; congr 1; omega
  have hposp : 0 < (2:Nat) ^ (52 - k) := Nat.pos_pow_of_pos _ (by omega)
  have hrepr : 2 ^ 52 + (n - 2 ^ k) * 2 ^ (52 - k) = n * 2 ^ (52 - k) := by
    rw [← hpow]
    have hsm : (n - 2 ^ k) * 2 ^ (52 - k) = n * 2 ^ (52 - k) - 2 ^ k * 2 ^ (52 - k) :=
      Nat.sub_mul _ _ _
    have hmle : 2 ^ k * 2 ^ (52 - k) ≤ n * 2 ^ (52 - k) := Nat.mul_le_mul_right _ hk1
    omega
  rw [hrepr]
  exact Nat.mul_div_cancel n hposp

/-- Field extraction from a positive-sign binary64 pattern: the value
read back is the hidden-bit mantissa shifted down by the unbiased
exponent. -/
theorem intOfDoubleBits_pos (k M : Nat) (hk : k ≤ 52) (hM : M < 2 ^ 52) :
    intOfDoubleBits ((k + 1023) * 2 ^ 52 + M) = (((2 ^ 52 + M) / 2 ^ (52 - k) : Nat) : Int) := by
  have L52 : (2:Nat) ^ 52 = 4503599627370496 := by norm_num
  have L63 : (2:Nat) ^ 63 = 9223372036854775808 := by norm_num
  have L11 : (2:Nat) ^ 11 = 2048 := by norm_num
  have hw0 : (k + 1023) * 2 ^ 52 + M ≠ 0 := by rw [L52]; omega
  simp only [intOfDoubleBits, if_neg hw0]
  have he : ((k + 1023) * 2 ^ 52 + M) / 2 ^ 52 % 2 ^ 11 = k + 1023 := by
    rw [L52, L11]; omega
  have hm : ((k + 1023) * 2 ^ 52 + M) % 2 ^ 52 = M := by
    rw [L52]; omega
  rw [he, hm]
  rw [if_neg (show ¬ 2 ^ 63 ≤ (k + 1023) * 2 ^ 52 + M by rw [L52, L63]; omega)]
  by_cases hk52 : 52 ≤ k
  · have hck : k = 52 := by omega
    subst hck
    rw [if_pos (by omega)]
    norm_num
  · rw [if_neg (by omega)]
    have hce : 1075 - (k + 1023) = 52 - k := by omega
    rw [hce]

/-- Field extraction from a negative-sign binary64 pattern. -/
theorem intOfDoubleBits_neg (k M : Nat) (hk : k ≤ 52) (hM : M < 2 ^ 52) :
    intOfDoubleBits (2 ^ 63 + (k + 1023) * 2 ^ 52 + M) =
      -(((2 ^ 52 + M) / 2 ^ (52 - k) : Nat) : Int) := by
  have L52 : (2:Nat) ^ 52 = 4503599627370496 := by norm_num
  have L63 : (2:Nat) ^ 63 = 9223372036854775808 := by norm_num
  have L11 : (2:Nat) ^ 11 = 2048 := by norm_num
  have hw0 : 2 ^ 63 + (k + 1023) * 2 ^ 52 + M ≠ 0 := by rw [L52, L63]; omega
  simp only [intOfDoubleBits, if_neg hw0]
  have he : (2 ^ 63 + (k + 1023) * 2 ^ 52 + M) / 2 ^ 52 % 2 ^ 11 = k + 1023 := by
    rw [L52, L11, L63]; omega
  have hm : (2 ^ 63 + (k + 1023) * 2 ^ 52 + M) % 2 ^ 52 = M := by
    rw [L52, L63]; omega
  rw [he, hm]
  rw [if_pos (show 2 ^ 63 ≤ 2 ^ 63 + (k + 1023) * 2 ^ 52 + M by omega)]
  by_cases hk52 : 52 ≤ k
  · have hck : k = 52 := by omega
    subst hck
    rw [if_pos (by omega)]
    norm_num
  · rw [if_neg (by omega)]
    have hce : 1075 - (k + 1023) = 52 - k := by omega
    rw [hce]

/-- Unpacking the binary64 pattern of an exactly representable integer
recovers that integer. -/
theorem intOfDoubleBits_doubleBitsOfInt (s : Int) (h : s.natAbs < 2 ^ 53) :
    intOfDoubleBits (doubleBitsOfInt s) = s := by
  by_cases hs : s = 0
  · subst hs; rfl
  · have hn1 : 1 ≤ s.natAbs := by
      have : s.natAbs ≠ 0 := fun hc => hs (Int.natAbs_eq_zero.mp hc)
      omega
    have hn64 : s.natAbs < 2 ^ 64 := lt_of_lt_of_le h (Nat.pow_le_pow_right (by omega) (by omega))
    have hk1 : 2 ^ log2f 64 s.natAbs ≤ s.natAbs := log2f_le 64 _ hn1 hn64
    have hk52 : log2f 64 s.natAbs ≤ 52 := log2f_le_52 hn1 h
    have hmlt := mantissa_lt s.natAbs hn1 h
    simp only [doubleBitsOfInt, if_neg hs]
    by_cases hneg : s < 0
    · rw [if_pos hneg, intOfDoubleBits_neg _ _ hk52 hmlt, mag_div _ _ hk1 hk52]
      omega
    · rw [if_neg hneg, Nat.zero_add, intOfDoubleBits_pos _ _ hk52 hmlt, mag_div _ _ hk1 hk52]
      omega

/-- The binary64 pattern of an exactly representable integer fits in
64 bits. -/
theorem doubleBitsOfInt_lt (s : Int) (h : s.natAbs < 2 ^ 53) : doubleBitsOfInt s < 2 ^ 64 := by
  by_cases hs : s = 0
  · subst hs; norm_num [doubleBitsOfInt]
  · have hn1 : 1 ≤ s.natAbs := by
      have : s.natAbs ≠ 0 := fun hc => hs (Int.natAbs_eq_zero.mp hc)
      omega
    have hk52 : log2f 64 s.natAbs ≤ 52 := log2f_le_52 hn1 h
    have hmlt := mantissa_lt s.natAbs hn1 h
    have L52 : (2:Nat) ^ 52 = 4503599627370496 := by norm_num
    have L63 : (2:Nat) ^ 63 = 9223372036854775808 := by norm_num
    have L64 : (2:Nat) ^ 64 = 18446744073709551616 := by norm_num
    simp only [doubleBitsOfInt, if_neg hs]
    rw [L52, L64] at *
    split <;> omega

/-- C1: for every integer in the signed 64-bit range, decoding the
encoding returns that integer, and the encoding is exactly eight
big-endian bytes. -/
theorem encode_decode_int_roundtrip (i : Int) (h1 : -(2 ^ 63) ≤ i) (h2 : i ≤ 2 ^ 63 - 1) :
    ∃ bs : List Nat, encode_int i = .ok bs ∧ bs.length = 8 ∧ decode_int bs = .ok i := by
  have hlt : i < 2 ^ 63 := by omega
  refine ⟨beBytes 8 (i % 2 ^ 64).toNat, ?_, beBytes_length 8 _, ?_⟩
  · simp only [encode_int, if_pos (And.intro h1 hlt)]
  · have hnn : 0 ≤ i % 2 ^ 64 := Int.emod_nonneg i (by norm_num)
    have hlt64 : i % 2 ^ 64 < 2 ^ 64 := Int.emod_lt_of_pos i (by norm_num)
    have hfit : (i % 2 ^ 64).toNat < 256 ^ 8 := by omega
    unfold decode_int
    rw [if_pos (beBytes_length 8 _), fromBytesBE_beBytes 8 _ hfit]
    split <;> (simp only [Except.ok.injEq]; omega)

/-- C1 witness: the roundtrip evaluated at 5. -/
theorem encode_decode_int_roundtrip_witness :
    -(2 ^ 63) ≤ (5 : Int) ∧ (5 : Int) ≤ 2 ^ 63 - 1 ∧
      ∃ bs : List Nat, encode_int 5 = .ok bs ∧ bs.length = 8 ∧ decode_int bs = .ok 5 :=
  ⟨by decide, by decide, encode_decode_int_roundtrip 5 (by decide) (by decide)⟩

/-- C2: encoding any integer outside the signed 64-bit range does not
return bytes but fails with the overflow error kind. -/
theorem encode_int_overflow (i : Int) (h : i < -(2 ^ 63) ∨ 2 ^ 63 ≤ i) :
    encode_int i = .error .overflow := by
  unfold encode_int
  rw [if_neg (show ¬(-(2 ^ 63) ≤ i ∧ i < 2 ^ 63) by omega)]

/-- C2 witness: encoding 2 ^ 63, the first integer above the range,
fails with the overflow error. -/
theorem encode_int_overflow_witness : encode_int (2 ^ 63) = .error .overflow :=
  encode_int_overflow (2 ^ 63) (Or.inr (by decide))

/-- C3: every decoder rejects wrong-length input with the invalid-length
error kind: the three eight-byte decoders on any byte string whose
length is not 8, and the boolean decoder on any byte string whose length
is not 1; no decoder truncates or pads. -/
theorem decoders_reject_bad_length (bs : List Nat) :
    (bs.length ≠ 8 →
      decode_int bs = .error .invalidLength ∧
      decode_float bs = .error .invalidLength ∧
      decode_datetime bs = .error .invalidLength) ∧
    (bs.length ≠ 1 → decode_boolean bs = .error .invalidLength) := by
  constructor
  · intro h
    refine ⟨?_, ?_, ?_⟩
    · unfold decode_int; rw [if_neg h]
    · unfold decode_float; rw [if_neg h]
    · unfold decode_datetime decode_float; rw [if_neg h]; rfl
  · intro h
    cases bs with
    | nil => rfl
    | cons b rest =>
      cases rest with
      | nil => exact absurd rfl h
      | cons c rest2 => rfl

/-- C3 witness: a three-byte buffer is rejected by the integer decoder
(the claim's example) and by the boolean decoder. -/
theorem decoders_reject_bad_length_witness :
    decode_int [0, 0, 0] = .error .invalidLength ∧
      decode_boolean [0, 0, 0] = .error .invalidLength :=
  ⟨((decoders_reject_bad_length [0, 0, 0]).1 (by decide)).1,
    (decoders_reject_bad_length [0, 0, 0]).2 (by decide)⟩

/-- C8: the boolean decoder maps the zero byte to false and every
nonzero byte to true, and decoding the encoding of either boolean
returns that boolean. -/
theorem decode_boolean_convention :
    decode_boolean [0] = .ok false ∧
    (∀ b : Nat, b ≠ 0 → decode_boolean [b] = .ok true) ∧
    (∀ v : Bool, decode_boolean (encode_boolean v) = .ok v) := by
  refine ⟨rfl, ?_, ?_⟩
  · intro b hb
    simp [decode_boolean, hb]
  · intro v
    cases v <;> rfl

/-- C8 witness: the nonzero byte 7 decodes to true. -/
theorem decode_boolean_convention_witness :
    (7 : Nat) ≠ 0 ∧ decode_boolean [7] = .ok true :=
  ⟨by decide, decode_boolean_convention.2.1 7 (by decide)⟩

/-- C5: for every finite double, identified with its 64-bit pattern
(the exponent field is not all ones), decoding the encoding returns the
same pattern, hence exactly the same float value; the encoding is the
eight-byte big-endian IEEE-754 representation. -/
theorem encode_decode_float_roundtrip (w : Nat) (hw : w < 2 ^ 64)
    (_hfin : w / 2 ^ 52 % 2 ^ 11 ≠ 2047) :
    (encode_float w).length = 8 ∧ decode_float (encode_float w) = .ok w := by
  refine ⟨beBytes_length 8 w, ?_⟩
  unfold decode_float encode_float
  rw [if_pos (beBytes_length 8 w), fromBytesBE_beBytes 8 w (by omega)]

/-- C5 witness: the roundtrip evaluated at the pattern of the double
1.0, the literal of the spec's scenario. -/
theorem encode_decode_float_roundtrip_witness :
    (4607182418800017408 : Nat) < 2 ^ 64 ∧
      (4607182418800017408 : Nat) / 2 ^ 52 % 2 ^ 11 ≠ 2047 ∧
      ((encode_float 4607182418800017408).length = 8 ∧
        decode_float (encode_float 4607182418800017408) = .ok 4607182418800017408) :=
  ⟨by decide, by decide, encode_decode_float_roundtrip _ (by decide) (by decide)⟩

/-- C9 counterexample: the claim fails as stated; at i = -1 and j = 0
(so i ≤ j in the signed 64-bit range) the encoding of i is the all-ones
byte string, which is lexicographically above the encoding of j. -/
theorem encode_int_order_cex :
    encode_int (-1) = .ok [255, 255, 255, 255, 255, 255, 255, 255] ∧
    encode_int 0 = .ok [0, 0, 0, 0, 0, 0, 0, 0] ∧
    lexLe [255, 255, 255, 255, 255, 255, 255, 255] [0, 0, 0, 0, 0, 0, 0, 0] = false := by
  decide

/-- C9 amended: the big-endian encoding preserves order between signed
64-bit integers of the same sign (both nonnegative or both negative),
and the boolean encoding of false sorts below that of true. -/
theorem encode_int_order_same_sign (i j : Int)
    (h : (0 ≤ i ∧ i ≤ j ∧ j < 2 ^ 63) ∨ (-(2 ^ 63) ≤ i ∧ i ≤ j ∧ j < 0)) :
    (∃ bi bj : List Nat,
      encode_int i = .ok bi ∧ encode_int j = .ok bj ∧ lexLe bi bj = true) ∧
    lexLe (encode_boolean false) (encode_boolean true) = true := by
  refine ⟨?_, rfl⟩
  have hi : -(2 ^ 63) ≤ i ∧ i < 2 ^ 63 := by omega
  have hj : -(2 ^ 63) ≤ j ∧ j < 2 ^ 63 := by omega
  refine ⟨beBytes 8 (i % 2 ^ 64).toNat, beBytes 8 (j % 2 ^ 64).toNat, ?_, ?_, ?_⟩
  · simp only [encode_int, if_pos hi]
  · simp only [encode_int, if_pos hj]
  · have h1 : 0 ≤ i % 2 ^ 64 := Int.emod_nonneg i (by norm_num)
    have h2 : 0 ≤ j % 2 ^ 64 := Int.emod_nonneg j (by norm_num)
    have h3 : j % 2 ^ 64 < 2 ^ 64 := Int.emod_lt_of_pos j (by norm_num)
    exact lexLe_beBytes 8 _ _ (by omega) (by omega)

/-- C9 witness: the amended order preservation evaluated at 1 ≤ 2. -/
theorem encode_int_order_same_sign_witness :
    ((0 : Int) ≤ 1 ∧ (1 : Int) ≤ 2 ∧ (2 : Int) < 2 ^ 63) ∧
      ((∃ bi bj : List Nat,
        encode_int 1 = .ok bi ∧ encode_int 2 = .ok bj ∧ lexLe bi bj = true) ∧
      lexLe (encode_boolean false) (encode_boolean true) = true) :=
  ⟨by decide, encode_int_order_same_sign 1 2 (Or.inl (by decide))⟩

/-- C4: for the string prefix "123" (bytes 49, 50, 51) the row set
selects exactly the keys starting with "123#": it contains "123#1" and
"123#2", excludes "124#1" and "12#1", and in general a key is selected
iff it starts with "123#", so the boundaries are exact. -/
theorem create_prefix_row_set_str_covers :
    (∀ key : List Nat,
      rowSetContains (create_prefix_row_set (.str [49, 50, 51])) key =
        startsWith [49, 50, 51, 35] key) ∧
    rowSetContains (create_prefix_row_set (.str [49, 50, 51])) [49, 50, 51, 35, 49] = true ∧
    rowSetContains (create_prefix_row_set (.str [49, 50, 51])) [49, 50, 51, 35, 50] = true ∧
    rowSetContains (create_prefix_row_set (.str [49, 50, 51])) [49, 50, 52, 35, 49] = false ∧
    rowSetContains (create_prefix_row_set (.str [49, 50, 51])) [49, 50, 35, 49] = false := by
  refine ⟨?_, by decide, by decide, by decide, by decide⟩
  intro key
  exact range_eq_startsWith [49, 50, 51, 35] (by decide) key

/-- C10: the row-set helper accepts str or bytes, but builds the range
prefix by f-string formatting; for every bytes prefix p (of printable
ASCII without single quotes or backslashes, where the repr is the plain
framed form) the range start is the textual repr of p followed by the
hash byte, not p followed by the hash byte, and consequently no key
beginning with p followed by the hash byte is selected. -/
theorem create_prefix_row_set_bytes_mismatch (p : List Nat)
    (hp : ∀ b ∈ p, 32 ≤ b ∧ b ≤ 126 ∧ b ≠ 39 ∧ b ≠ 92) :
    (create_prefix_row_set (.bytes p)).start = 98 :: 39 :: (p ++ [39, 35]) ∧
    ∀ y : List Nat,
      rowSetContains (create_prefix_row_set (.bytes p)) (p ++ 35 :: y) = false := by
  have hs : (create_prefix_row_set (.bytes p)).start = 98 :: 39 :: (p ++ [39, 35]) := by
    simp [create_prefix_row_set, add_row_range_with_prefix, pyFormat]
  have hstop : (create_prefix_row_set (.bytes p)).stop =
      incLast (98 :: 39 :: (p ++ [39, 35])) := by
    simp [create_prefix_row_set, add_row_range_with_prefix, pyFormat]
  refine ⟨hs, ?_⟩
  intro y
  have key_eq : rowSetContains (create_prefix_row_set (.bytes p)) (p ++ 35 :: y) =
      startsWith (98 :: 39 :: (p ++ [39, 35])) (p ++ 35 :: y) := by
    unfold rowSetContains
    rw [hs, hstop, range_eq_startsWith _ (by simp)]
  rw [key_eq]
  cases p with
  | nil => simp [startsWith]
  | cons a q =>
    cases q with
    | nil =>
      simp only [startsWith, List.cons_append, List.nil_append]
      by_cases h : (98 : Nat) = a
      · rw [if_pos h, if_neg (by omega)]
      · rw [if_neg h]
    | cons b r =>
      have hb : b ≠ 39 := ((hp b (by simp)).2).2.1
      simp only [startsWith, List.cons_append]
      by_cases h : (98 : Nat) = a
      · rw [if_pos h, if_neg (fun hc => hb hc.symm)]
      · rw [if_neg h]

/-- C10 witness: evaluated at the bytes prefix "123"; the range start is
the repr framing around 49, 50, 51 and the key "123#1" is not
selected. -/
theorem create_prefix_row_set_bytes_mismatch_witness :
    (∀ b ∈ [49, 50, 51], 32 ≤ b ∧ b ≤ 126 ∧ b ≠ 39 ∧ b ≠ 92) ∧
    (create_prefix_row_set (.bytes [49, 50, 51])).start =
      98 :: 39 :: ([49, 50, 51] ++ [39, 35]) ∧
    rowSetContains (create_prefix_row_set (.bytes [49, 50, 51]))
      ([49, 50, 51] ++ 35 :: [49]) = false := by
  have h := create_prefix_row_set_bytes_mismatch [49, 50, 51] (by decide)
  exact ⟨by decide, h.1, h.2 [49]⟩

/-- C7 counterexample: 2022-01-01 01:00 at UTC+1 and 2022-01-01 00:00
UTC denote the same instant, yet encode to different bytes, because the
tzinfo replacement discards the offset instead of converting the
instant. -/
theorem encode_datetime_same_instant_cex :
    sameInstant ⟨1640998800, some 3600⟩ ⟨1640995200, some 0⟩ = true ∧
    encode_datetime ⟨1640998800, some 3600⟩ ≠ encode_datetime ⟨1640995200, some 0⟩ := by
  decide

/-- C7 amended: encode_datetime overwrites the tzinfo with UTC without
adjusting the wall-clock fields, so it encodes the wall-clock seconds
as a double: any two inputs with the same wall-clock fields, whatever
their timezones, encode to the same bytes, namely the float encoding of
the wall-clock seconds; two representations of the same instant in
different timezones generally encode to different bytes. -/
theorem encode_datetime_wall_clock (t1 t2 : PyDatetime) (h : t1.wall = t2.wall) :
    encode_datetime t1 = .ok (encode_float (doubleBitsOfInt t1.wall)) ∧
    encode_datetime t1 = encode_datetime t2 := by
  have e : ∀ t : PyDatetime, encode_datetime t = .ok (encode_float (doubleBitsOfInt t.wall)) := by
    intro t
    simp [encode_datetime, timestamp, replace_tzinfo_utc]
  refine ⟨e t1, ?_⟩
  rw [e t1, e t2, h]

/-- C7 witness: an aware value at UTC+1 and a naive value with the same
wall-clock fields encode identically. -/
theorem encode_datetime_wall_clock_witness :
    (PyDatetime.mk 1640995200 (some 3600)).wall = (PyDatetime.mk 1640995200 none).wall ∧
    (encode_datetime ⟨1640995200, some 3600⟩ =
        .ok (encode_float (doubleBitsOfInt (PyDatetime.mk 1640995200 (some 3600)).wall)) ∧
      encode_datetime ⟨1640995200, some 3600⟩ = encode_datetime ⟨1640995200, none⟩) :=
  ⟨rfl, encode_datetime_wall_clock ⟨1640995200, some 3600⟩ ⟨1640995200, none⟩ rfl⟩

/-- C6 counterexample: encoding then decoding the aware UTC datetime
2022-01-01 00:00:00+00:00 (wall seconds 1640995200) yields the naive
datetime with the same fields, and Python == never equates a naive with
an aware value, so the roundtrip is not the identity on aware UTC
inputs. -/
theorem decode_datetime_aware_cex :
    (encode_datetime ⟨1640995200, some 0⟩).bind decode_datetime = .ok ⟨1640995200, none⟩ ∧
    pyDatetimeEq ⟨1640995200, none⟩ ⟨1640995200, some 0⟩ = false := by
  decide

/-- C6 amended: for every naive datetime, interpreted as UTC, whose
seconds value is exactly representable in a double, decoding the
encoding returns exactly that datetime; every successful decode yields a
naive value.  For timezone-aware UTC inputs the decoded value keeps the
wall-clock fields but is naive, which Python == distinguishes. -/
theorem encode_decode_datetime_naive_roundtrip (t : PyDatetime) (h1 : t.tz = none)
    (h2 : t.wall.natAbs < 2 ^ 53) :
    (encode_datetime t).bind decode_datetime = .ok t ∧
    (∀ bs : List Nat, ∀ u : PyDatetime, decode_datetime bs = .ok u → u.tz = none) := by
  constructor
  · have e : encode_datetime t = .ok (encode_float (doubleBitsOfInt t.wall)) := by
      simp [encode_datetime, timestamp, replace_tzinfo_utc]
    rw [e]
    show decode_datetime (encode_float (doubleBitsOfInt t.wall)) = .ok t
    have hlt : doubleBitsOfInt t.wall < 256 ^ 8 := by
      have := doubleBitsOfInt_lt t.wall h2
      omega
    unfold decode_datetime decode_float encode_float
    rw [if_pos (beBytes_length 8 _), fromBytesBE_beBytes 8 _ hlt]
    show Except.ok (utcfromtimestamp (intOfDoubleBits (doubleBitsOfInt t.wall))) = .ok t
    rw [intOfDoubleBits_doubleBitsOfInt t.wall h2]
    cases t with
    | mk w tz =>
      simp only at h1
      subst h1
      rfl
  · intro bs u hdec
    unfold decode_datetime at hdec
    cases hfd : decode_float bs with
    | ok w =>
      rw [hfd] at hdec
      simp only [Except.map] at hdec
      cases hdec
      rfl
    | error e =>
      rw [hfd] at hdec
      simp only [Except.map] at hdec
      exact Except.noConfusion hdec

/-- C6 witness: the naive roundtrip evaluated at 2022-01-01 00:00:00
(wall seconds 1640995200), the spec's scenario value. -/
theorem encode_decode_datetime_naive_roundtrip_witness :
    (PyDatetime.mk 1640995200 none).tz = none ∧
    (PyDatetime.mk 1640995200 none).wall.natAbs < 2 ^ 53 ∧
    ((encode_datetime ⟨1640995200, none⟩).bind decode_datetime = .ok ⟨1640995200, none⟩ ∧
      (∀ bs : List Nat, ∀ u : PyDatetime, decode_datetime bs = .ok u → u.tz = none)) :=
  ⟨rfl, by decide, encode_decode_datetime_naive_roundtrip ⟨1640995200, none⟩ rfl (by decide)⟩
